import Mathlib

/-!
Verification of the ledger/state engine of the Expense-tracker repository
(`src/app.js`: `Utils.evalMath` and the `Tracker` class) against its
natural-language specification.

Modelling conventions (shallow embedding):
* JavaScript numbers are modelled as exact rationals (`ℚ`).  Binary floating
  point representation error, `NaN` and `Infinity` are outside the model; in
  particular a division whose divisor evaluates to `0` (JS: `Infinity`) is
  modelled as an evaluation failure, and the `*100`,`/100` steps of the
  rounding expression are exact.
* `JSON.parse` / `JSON.stringify` (native JS) are absorbed into a structured
  `Json` value type: functions that in the source receive or produce a JSON
  *text* here receive or produce the parsed `Json` tree (with `Option`/a
  dedicated constructor for unparsable text).  `Function("return (...)")`,
  the native JS expression evaluator, is modelled by an explicit
  recursive-descent parser/evaluator for the whitelisted arithmetic grammar
  (decimal literals, `+ - * /`, unary sign, parentheses, whitespace); the
  legacy sloppy-mode octal literals (`012`) and the `**` operator, both of
  which the character whitelist admits, are not modelled.
* A thrown JS exception is modelled as `Except.error` / a `Bool` flag; in
  every operation of the source the `throw` happens before any mutation of
  `this.state`, so the wrappers that return the prior state on error are
  faithful to the code.
* `this.storage` (localStorage) is modelled as `Option Json`: the parsed
  content stored under the single key, `none` when absent.
-/

/-- A parsed JSON value, as produced by `JSON.parse`. -/
inductive Json where
  | null : Json
  | bool (b : Bool) : Json
  | num (q : ℚ) : Json
  | str (s : String) : Json
  | arr (elems : List Json) : Json
  | obj (fields : List (String × Json)) : Json

/-- Field lookup in an object's field list (first match wins). -/
def findField : List (String × Json) → String → Json
  | [], _ => .null
  | (k, v) :: rest, key => if k = key then v else findField rest key

/-- JS property access `j.key`, for the payload checks of `importData`.
Missing fields and access on non-objects give `undefined`, which we merge
with `null` (both are falsy and not arrays, the only two observations the
code makes). -/
def getField (j : Json) (key : String) : Json :=
  match j with
  | .obj fields => findField fields key
  | _ => .null

/-- JS truthiness of a parsed JSON value (`NaN` is outside the model). -/
def truthy : Json → Bool
  | .null => false
  | .bool b => b
  | .num q => q != 0
  | .str s => s != ""
  | .arr _ => true
  | .obj _ => true

/-- `Array.isArray`. -/
def isArr : Json → Bool
  | .arr _ => true
  | _ => false

/-- One history entry, as pushed by `Tracker.addEntry`:
`{ ts, expr, desc, delta, balance }`. -/
structure Entry where
  ts : ℚ
  expr : String
  desc : String
  delta : ℚ
  balance : ℚ
deriving DecidableEq

/-- The tracker's state object:
`{ version, balance, expiry, history }`. -/
structure LedgerState where
  version : ℚ
  balance : ℚ
  expiry : String
  history : List Entry
deriving DecidableEq

/-- The default state `{ version: 1, balance: 0, expiry: Utils.todayISO(), history: [] }`
(`Utils.todayISO()` is an environment input, passed in as `today`). -/
def defaultState (today : String) : LedgerState :=
  ⟨1, 0, today, []⟩

/-- `this.state.history.reduce((sum, h) => sum + h.delta, 0)`. -/
def sumDeltas (hs : List Entry) : ℚ :=
  hs.foldl (fun sum h => sum + h.delta) 0

/-- `Tracker.recomputeBalance`: `this.state.balance = history.reduce(...)`.
Note the source does NOT round here. -/
def recomputeBalance (st : LedgerState) : LedgerState :=
  { st with balance := sumDeltas st.history }

/-- `Math.round(x)` for a finite number: round half up (ties toward `+∞`). -/
def jsRound (q : ℚ) : ℤ :=
  ⌊q + 1/2⌋

/-- The balance-rounding expression of `addEntry`:
`Math.round(x * 100) / 100`. -/
def round2 (q : ℚ) : ℚ :=
  (jsRound (q * 100) : ℚ) / 100

/-- Modelled from the spec (§4.2 rounding policy), for comparison with the
code's `round2`: rounding to 2 decimals "using round-half-away-from-zero
semantics", i.e. the magnitude is rounded half up and the sign restored. -/
def round2away (q : ℚ) : ℚ :=
  if 0 ≤ q then (jsRound (q * 100) : ℚ) / 100
  else -((jsRound (-q * 100) : ℚ) / 100)

/-- Serialization of an entry (`JSON.stringify`, object key order as pushed). -/
def encodeEntry (h : Entry) : Json :=
  .obj [("ts", .num h.ts), ("expr", .str h.expr), ("desc", .str h.desc),
        ("delta", .num h.delta), ("balance", .num h.balance)]

/-- Serialization of the whole state (`JSON.stringify(this.state)`),
modelled at the parsed-tree level. -/
def encodeState (st : LedgerState) : Json :=
  .obj [("version", .num st.version), ("balance", .num st.balance),
        ("expiry", .str st.expiry),
        ("history", .arr (st.history.map encodeEntry))]

/-- Strict reading of a serialized entry back into the typed model. -/
def decodeEntry (j : Json) : Option Entry :=
  match getField j "ts", getField j "expr", getField j "desc",
        getField j "delta", getField j "balance" with
  | .num t, .str e, .str d, .num dl, .num b => some ⟨t, e, d, dl, b⟩
  | _, _, _, _, _ => none

/-- Strict reading of a serialized history array. -/
def decodeEntries : List Json → Option (List Entry)
  | [] => some []
  | j :: rest =>
    match decodeEntry j, decodeEntries rest with
    | some e, some l => some (e :: l)
    | _, _ => none

/-- Strict reading of a serialized state back into the typed model.
Succeeds exactly on payloads whose four fields have the types the rest of
the tracker relies on. -/
def decodeState (j : Json) : Option LedgerState :=
  match getField j "version", getField j "balance", getField j "expiry",
        getField j "history" with
  | .num v, .num b, .str ex, .arr hs =>
    (decodeEntries hs).map (fun l => ⟨v, b, ex, l⟩)
  | _, _, _, _ => none

/-- `Tracker.exportData`: `JSON.stringify(this.state, null, 2)`, modelled at
the parsed-tree level (pretty-printing is invisible after re-parsing). -/
def exportData (st : LedgerState) : Json :=
  encodeState st

/-- `Tracker.save`: `storage.setItem(KEY, JSON.stringify(this.state))`. -/
def save (st : LedgerState) : Option Json :=
  some (encodeState st)

/-- A tracker together with its storage collaborator. -/
structure Sys where
  state : LedgerState
  store : Option Json

/-- The content `storage.getItem(KEY)` gives to `Tracker.load`, after the
`JSON.parse` attempt: absent key, unparsable text, or a parsed value.
(`getItem` returns `null` when absent; `JSON.parse(null)` parses the coerced
string `"null"` to the JSON value `null`.) -/
inductive StoredValue where
  | absent : StoredValue
  | unparsable : StoredValue
  | parsed (j : Json) : StoredValue

/-- `Tracker.load`: `try { return JSON.parse(storage.getItem(KEY)) || default }
catch { return default }`.  A falsy parse result (including the `null` that an
absent key parses to) falls back to the default; any truthy parsed value is
adopted as the state with no further validation.  Total, so it never raises. -/
def load (today : String) : StoredValue → Json
  | .absent => encodeState (defaultState today)
  | .unparsable => encodeState (defaultState today)
  | .parsed j => if truthy j then j else encodeState (defaultState today)

/-! ## Expression evaluator (`Utils.evalMath`)

The source first tests the whitelist regex `^[0-9+\-*/().\s]+$` and throws
otherwise, then hands the text to the native JS evaluator
(`Function("return (" + expr + ")")()`).  The JS evaluator is modelled by a
recursive-descent parser for the grammar reachable from the whitelist:

    Expr   := Term (('+' | '-') Term)*          (left associative)
    Term   := Factor (('*' | '/') Factor)*      (left associative)
    Factor := ('+' | '-') Factor | Number | '(' Expr ')'
    Number := digits | digits '.' digits* | '.' digits

with whitespace allowed between tokens, and the adjacent character pairs
`++` and `--`, which JS lexes as increment/decrement tokens, rejected. -/

/-- The character whitelist `[0-9+\-*/().\s]` of `evalMath` (the JS `\s`
class is modelled by `Char.isWhitespace`). -/
def allowedChar (c : Char) : Bool :=
  c.isDigit || c == '+' || c == '-' || c == '*' || c == '/' ||
    c == '(' || c == ')' || c == '.' || c.isWhitespace

/-- Abstract syntax of the arithmetic expressions the whitelist admits.
`num ip fp` is a decimal literal with integer-part and fraction-part digit
lists; `paren` is explicit parenthesis grouping; `pos`/`neg` are unary sign. -/
inductive AExp where
  | num (ip fp : List ℕ) : AExp
  | add (a b : AExp) : AExp
  | sub (a b : AExp) : AExp
  | mul (a b : AExp) : AExp
  | div (a b : AExp) : AExp
  | neg (a : AExp) : AExp
  | pos (a : AExp) : AExp
  | paren (a : AExp) : AExp
deriving DecidableEq

/-- Grammar level of a node: `0` expression, `1` term, `2` factor. -/
def lvl : AExp → ℕ
  | .add _ _ | .sub _ _ => 0
  | .mul _ _ | .div _ _ => 1
  | .num _ _ | .paren _ | .neg _ | .pos _ => 2

/-- Node count, the induction measure for the parser proofs. -/
def sizeA : AExp → ℕ
  | .num _ _ => 1
  | .add a b | .sub a b | .mul a b | .div a b => sizeA a + sizeA b + 1
  | .neg a | .pos a | .paren a => sizeA a + 1

/-- Well-formed trees: each child sits at the grammar level its position
requires, literals have digits `< 10`, are not empty, and have no leading
zero (JS would read a leading-zero literal as legacy octal).  The printer
image of `wf` trees is exactly the conventionally-valid infix texts. -/
def wf : AExp → Bool
  | .num ip fp =>
    ip.all (fun d => decide (d < 10)) && fp.all (fun d => decide (d < 10)) &&
      !(ip.isEmpty && fp.isEmpty) && (!(ip.head? == some 0) || ip == [0])
  | .add a b | .sub a b => wf a && wf b && decide (1 ≤ lvl b)
  | .mul a b | .div a b => wf a && wf b && decide (1 ≤ lvl a) && decide (2 ≤ lvl b)
  | .neg _ | .pos _ => false
  | .paren a => wf a

/-- The digit character for `d < 10`. -/
def digitChar (d : ℕ) : Char :=
  Char.ofNat (48 + d)

/-- Text of a tree, as a character list.  On `wf` trees this is the
canonical (whitespace-free) valid infix text of the expression. -/
def ppL : AExp → List Char
  | .num ip fp =>
    ip.map digitChar ++ (if fp.isEmpty then [] else '.' :: fp.map digitChar)
  | .add a b => ppL a ++ '+' :: ppL b
  | .sub a b => ppL a ++ '-' :: ppL b
  | .mul a b => ppL a ++ '*' :: ppL b
  | .div a b => ppL a ++ '/' :: ppL b
  | .neg a => '-' :: ppL a
  | .pos a => '+' :: ppL a
  | .paren a => '(' :: (ppL a ++ [')'])

/-- Text of a tree, as a string. -/
def ppS (e : AExp) : String :=
  ⟨ppL e⟩

/-- Value of a digit list read as a decimal integer. -/
def digitsVal (ds : List ℕ) : ℕ :=
  ds.foldl (fun a d => 10 * a + d) 0

/-- Value of the literal `num ip fp`. -/
def litVal (ip fp : List ℕ) : ℚ :=
  (digitsVal ip : ℚ) + (digitsVal fp : ℚ) / (10 : ℚ) ^ fp.length

/-- Mathematical value of a tree under the conventional reading; `none` when
a division's divisor evaluates to `0` (JS would produce a non-finite value,
which the rational model cannot represent). -/
def aeval : AExp → Option ℚ
  | .num ip fp => some (litVal ip fp)
  | .add a b => do pure ((← aeval a) + (← aeval b))
  | .sub a b => do pure ((← aeval a) - (← aeval b))
  | .mul a b => do pure ((← aeval a) * (← aeval b))
  | .div a b => do
    let x ← aeval a
    let y ← aeval b
    if y = 0 then none else pure (x / y)
  | .neg a => do pure (-(← aeval a))
  | .pos a => aeval a
  | .paren a => aeval a

/-- Drop leading whitespace (the tokenizer's skip). -/
def skipWs (cs : List Char) : List Char :=
  cs.dropWhile (fun c => c.isWhitespace)

/-- Read a maximal run of digit characters. -/
def takeDigits : List Char → List ℕ × List Char
  | [] => ([], [])
  | c :: cs =>
    if c.isDigit then
      let (ds, r) := takeDigits cs
      ((c.toNat - 48) :: ds, r)
    else ([], c :: cs)

/-- Read one numeric literal (`digits`, `digits '.' digits*` or `'.' digits`). -/
def parseNum (cs : List Char) : Option (AExp × List Char) :=
  let p := takeDigits cs
  match p.2 with
  | '.' :: r2 =>
    let q := takeDigits r2
    if p.1.isEmpty && q.1.isEmpty then none else some (.num p.1 q.1, q.2)
  | _ => if p.1.isEmpty then none else some (.num p.1 [], p.2)

mutual

/-- Parse an expression: a term followed by `('+' | '-') term` repetitions. -/
def parseE (n : ℕ) (cs : List Char) : Option (AExp × List Char) :=
  match n with
  | 0 => none
  | n + 1 =>
    match parseT n cs with
    | some (a, r) => parseEIter n a r
    | none => none

/-- Left-associative accumulation of `('+' | '-') term` repetitions.  A `+`
or `-` immediately followed by the same character is the JS `++`/`--` token
and fails. -/
def parseEIter (n : ℕ) (acc : AExp) (cs : List Char) : Option (AExp × List Char) :=
  match n with
  | 0 => none
  | n + 1 =>
    match skipWs cs with
    | '+' :: rest =>
      if rest.head? == some '+' then none else
      match parseT n rest with
      | some (b, r) => parseEIter n (.add acc b) r
      | none => none
    | '-' :: rest =>
      if rest.head? == some '-' then none else
      match parseT n rest with
      | some (b, r) => parseEIter n (.sub acc b) r
      | none => none
    | _ => some (acc, cs)

/-- Parse a term: a factor followed by `('*' | '/') factor` repetitions. -/
def parseT (n : ℕ) (cs : List Char) : Option (AExp × List Char) :=
  match n with
  | 0 => none
  | n + 1 =>
    match parseF n cs with
    | some (a, r) => parseTIter n a r
    | none => none

/-- Left-associative accumulation of `('*' | '/') factor` repetitions. -/
def parseTIter (n : ℕ) (acc : AExp) (cs : List Char) : Option (AExp × List Char) :=
  match n with
  | 0 => none
  | n + 1 =>
    match skipWs cs with
    | '*' :: rest =>
      match parseF n rest with
      | some (b, r) => parseTIter n (.mul acc b) r
      | none => none
    | '/' :: rest =>
      match parseF n rest with
      | some (b, r) => parseTIter n (.div acc b) r
      | none => none
    | _ => some (acc, cs)

/-- Parse a factor: unary sign, a parenthesized expression, or a literal. -/
def parseF (n : ℕ) (cs : List Char) : Option (AExp × List Char) :=
  match n with
  | 0 => none
  | n + 1 =>
    match skipWs cs with
    | '+' :: rest =>
      if rest.head? == some '+' then none else
      match parseF n rest with
      | some (a, r) => some (.pos a, r)
      | none => none
    | '-' :: rest =>
      if rest.head? == some '-' then none else
      match parseF n rest with
      | some (a, r) => some (.neg a, r)
      | none => none
    | '(' :: rest =>
      match parseE n rest with
      | some (e, r) =>
        match skipWs r with
        | ')' :: r2 => some (.paren e, r2)
        | _ => none
      | none => none
    | cs2 => parseNum cs2

end

/-- Evaluation failures of `evalMath`: the whitelist rejection (the source's
`throw "bad"`) and a failure inside the native evaluator (a JS
`SyntaxError`, or a non-finite result, see the header). -/
inductive EvalErr where
  | badChar : EvalErr
  | notParsed : EvalErr
deriving DecidableEq

/-- `Utils.evalMath`: whitelist test first (rejected input is never
evaluated), then the full text must parse and evaluate as one expression. -/
def evalMath (s : String) : Except EvalErr ℚ :=
  let cs := s.data
  if cs.isEmpty || !cs.all allowedChar then .error .badChar
  else
    match parseE (3 * cs.length + 2) cs with
    | some (e, r) =>
      if (skipWs r).isEmpty then
        match aeval e with
        | some v => .ok v
        | none => .error .notParsed
      else .error .notParsed
    | none => .error .notParsed

/-! ## Tracker operations

Each `Tracker` method is split into its state transformation (on
`LedgerState`) and a `...Run` wrapper on `Sys` that adds the
`this.save()` write-through and, for throwing methods, returns the prior
`Sys` on error — faithful because in the source every `throw` happens
before the first mutation of `this.state`. -/

/-- JS `String.prototype.trim` (over the modelled whitespace class). -/
def jsTrim (s : String) : String :=
  ⟨((s.data.dropWhile (fun c => c.isWhitespace)).reverse.dropWhile
      (fun c => c.isWhitespace)).reverse⟩

/-- The regex test `/^[+\-*\/]/.test(cleanExpr)`. -/
def startsOp (s : String) : Bool :=
  match s.data with
  | c :: _ => c == '+' || c == '-' || c == '*' || c == '/'
  | [] => false

/-- The sign normalization of `addEntry`:
`if (!/^[+\-*\/]/.test(cleanExpr)) cleanExpr = "+" + cleanExpr`. -/
def normalizeExpr (s : String) : String :=
  if startsOp s then s else ⟨'+' :: s.data⟩

/-- Failures of `addEntry`: the `throw new Error("Empty expression")` and a
failure propagated unchanged from `Utils.evalMath`. -/
inductive AddErr where
  | emptyInput : AddErr
  | invalidExpression (e : EvalErr) : AddErr
deriving DecidableEq

/-- `Tracker.addEntry` state transformation (`now` is `Date.now()`): trim,
reject empty, normalize the sign, evaluate, round the new balance, append
the entry.  Returns the new state and the returned `delta`. -/
def addEntry (st : LedgerState) (now : ℚ) (expr desc : String) :
    Except AddErr (LedgerState × ℚ) :=
  let cleanExpr := jsTrim expr
  if cleanExpr = "" then .error .emptyInput
  else
    let norm := normalizeExpr cleanExpr
    match evalMath norm with
    | .error e => .error (.invalidExpression e)
    | .ok delta =>
      let newBalance := round2 (st.balance + delta)
      .ok ({ st with
              balance := newBalance,
              history := st.history ++
                [⟨now, norm, desc, delta, newBalance⟩] }, delta)

/-- `Tracker.addEntry` on the full system: on success the updated state is
persisted; the `throw`s happen before any mutation, so on error the system
is unchanged and nothing is persisted. -/
def addEntryRun (sys : Sys) (now : ℚ) (expr desc : String) :
    Sys × Except AddErr ℚ :=
  match addEntry sys.state now expr desc with
  | .ok (st, delta) => (⟨st, save st⟩, .ok delta)
  | .error e => (sys, .error e)

/-- `Tracker.undo` state transformation: empty history returns `false` with
no change; otherwise `pop` the last entry and `recomputeBalance()` (the
full, unrounded recompute of the source). -/
def undo (st : LedgerState) : LedgerState × Bool :=
  if st.history.isEmpty then (st, false)
  else (recomputeBalance { st with history := st.history.dropLast }, true)

/-- `Tracker.undo` on the full system: `save` happens only on the `true`
branch. -/
def undoRun (sys : Sys) : Sys × Bool :=
  let r := undo sys.state
  if r.2 then (⟨r.1, save r.1⟩, true) else (sys, false)

/-- `Tracker.updateExpiry`. -/
def updateExpiry (st : LedgerState) (date : String) : LedgerState :=
  { st with expiry := date }

/-- The failure of `Tracker.importData` (`JSON.parse` throwing, or the
`throw new Error("Invalid data format")` structural rejection — the spec's
`InvalidFormat`). -/
inductive ImportErr where
  | invalidFormat : ImportErr
deriving DecidableEq

/-- `Tracker.importData` validation and result: the argument is the
`JSON.parse` outcome (`none` = unparsable text).  A parsed payload needs a
truthy `version` and an array `history`; the raw payload then becomes the
whole state. -/
def importData (p : Option Json) : Except ImportErr Json :=
  match p with
  | none => .error .invalidFormat
  | some data =>
    if truthy (getField data "version") && isArr (getField data "history")
    then .ok data else .error .invalidFormat

/-- `Tracker.importData` on the full system, with the state held as the raw
JSON value the source assigns (`this.state = data`): on success the state is
wholly replaced and persisted, on failure (the `throw`s precede the
assignment) state and store are untouched.  The `Bool` reports success. -/
def importDataRun (stJ : Json) (sto : Option Json) (p : Option Json) :
    (Json × Option Json) × Bool :=
  match importData p with
  | .ok data => ((data, some data), true)
  | .error _ => ((stJ, sto), false)

/-- States reachable from the default state by successful `addEntry` calls
only (the setting of the spec's balance invariant).  The timestamp of each
call is arbitrary. -/
inductive AddReach (today : String) : LedgerState → Prop
  | init : AddReach today (defaultState today)
  | step {s s2 : LedgerState} {now delta : ℚ} {e d : String} :
      AddReach today s → addEntry s now e d = .ok (s2, delta) →
      AddReach today s2

/-- States reachable from the default state by the public mutating
operations (add, undo, recompute, expiry update, and import of a payload
that passes validation and is well-typed in the sense of `decodeState`). -/
inductive Reach (today : String) : LedgerState → Prop
  | init : Reach today (defaultState today)
  | add {s s2 : LedgerState} {now delta : ℚ} {e d : String} :
      Reach today s → addEntry s now e d = .ok (s2, delta) → Reach today s2
  | undoStep {s : LedgerState} : Reach today s → Reach today (undo s).1
  | recompute {s : LedgerState} : Reach today s → Reach today (recomputeBalance s)
  | expiry {s : LedgerState} (date : String) :
      Reach today s → Reach today (updateExpiry s date)
  | imp {s s2 : LedgerState} {j : Json} :
      Reach today s → importData (some j) = .ok j → decodeState j = some s2 →
      Reach today s2

/-- The incremental-rounding fold that `addEntry` actually maintains:
each entry's delta is added to the running balance and the result rounded
immediately. -/
def foldRound (hs : List Entry) : ℚ :=
  hs.foldl (fun b h => round2 (b + h.delta)) 0

deriving instance DecidableEq for Except

/-! ## Auxiliary structure for the parser proofs

A term `f0 ⊗ f1 ⊗ ... ⊗ fk` (left associated) is decomposed into its
leftmost factor and the list of `(operator, factor)` repetitions — the shape
in which `parseTIter`/`parseEIter` consume it; similarly at the expression
level. -/

/-- Leftmost factor and multiplicative repetitions of a term
(`true` = `*`, `false` = `/`). -/
def tSpine : AExp → AExp × List (Bool × AExp)
  | .mul a b => ((tSpine a).1, (tSpine a).2 ++ [(true, b)])
  | .div a b => ((tSpine a).1, (tSpine a).2 ++ [(false, b)])
  | e => (e, [])

/-- Leftmost term and additive repetitions of an expression
(`true` = `+`, `false` = `-`). -/
def eSpine : AExp → AExp × List (Bool × AExp)
  | .add a b => ((eSpine a).1, (eSpine a).2 ++ [(true, b)])
  | .sub a b => ((eSpine a).1, (eSpine a).2 ++ [(false, b)])
  | e => (e, [])

/-- Text of multiplicative repetitions. -/
def tOps : List (Bool × AExp) → List Char
  | [] => []
  | (o, f) :: l => (if o then '*' else '/') :: (ppL f ++ tOps l)

/-- Text of additive repetitions. -/
def eOps : List (Bool × AExp) → List Char
  | [] => []
  | (o, f) :: l => (if o then '+' else '-') :: (ppL f ++ eOps l)

/-- Rebuild a term from its spine by left-associated application. -/
def tFold (h : AExp) (l : List (Bool × AExp)) : AExp :=
  l.foldl (fun a p => if p.1 then .mul a p.2 else .div a p.2) h

/-- Rebuild an expression from its spine by left-associated application. -/
def eFold (h : AExp) (l : List (Bool × AExp)) : AExp :=
  l.foldl (fun a p => if p.1 then .add a p.2 else .sub a p.2) h

/-- Size of a repetition list (one per operator plus the factor sizes). -/
def lsize : List (Bool × AExp) → ℕ
  | [] => 0
  | (_, f) :: l => 1 + sizeA f + lsize l

/-- Continuations after which `parseE` must stop: end of input or a
closing parenthesis. -/
def stopE (rest : List Char) : Prop :=
  rest = [] ∨ rest.head? = some ')'

/-- Continuations after which `parseT` must stop. -/
def stopT (rest : List Char) : Prop :=
  stopE rest ∨ rest.head? = some '+' ∨ rest.head? = some '-'

/-- Continuations after which a parsed factor must end. -/
def stopF (rest : List Char) : Prop :=
  stopT rest ∨ rest.head? = some '*' ∨ rest.head? = some '/'

/-! ## Character-level lemmas -/

theorem digitChar_isDigit {d : ℕ} (h : d < 10) : (digitChar d).isDigit = true := by
  interval_cases d <;> decide

theorem digitChar_toNat {d : ℕ} (h : d < 10) : (digitChar d).toNat - 48 = d := by
  interval_cases d <;> decide

theorem digitChar_allowed {d : ℕ} (h : d < 10) : allowedChar (digitChar d) = true := by
  interval_cases d <;> decide

theorem isDigit_not_ws {c : Char} (h : c.isDigit = true) : c.isWhitespace = false := by
  by_contra h2
  simp only [Bool.not_eq_false, Char.isWhitespace] at h2
  simp only [Bool.or_eq_true, decide_eq_true_eq] at h2
  rcases h2 with (((rfl | rfl) | rfl) | rfl) <;> simp [Char.isDigit] at h

theorem isDigit_ne_plus {c : Char} (h : c.isDigit = true) : c ≠ '+' := by
  rintro rfl; simp [Char.isDigit] at h

theorem isDigit_ne_minus {c : Char} (h : c.isDigit = true) : c ≠ '-' := by
  rintro rfl; simp [Char.isDigit] at h

theorem isDigit_ne_lparen {c : Char} (h : c.isDigit = true) : c ≠ '(' := by
  rintro rfl; simp [Char.isDigit] at h

theorem skipWs_cons {c : Char} {cs : List Char} (h : c.isWhitespace = false) :
    skipWs (c :: cs) = c :: cs := by
  simp [skipWs, List.dropWhile_cons, h]

theorem skipWs_nil : skipWs [] = [] := rfl

/-- Heads after which a number literal's digit run stops. -/
def notDigitHead (r : List Char) : Prop :=
  ∀ c, r.head? = some c → c.isDigit = false

theorem takeDigits_spec {ds : List ℕ} {r : List Char} (hds : ∀ d ∈ ds, d < 10)
    (hr : notDigitHead r) : takeDigits (ds.map digitChar ++ r) = (ds, r) := by
  induction ds with
  | nil =>
    cases r with
    | nil => rfl
    | cons c cs =>
      have hc : c.isDigit = false := hr c rfl
      simp [takeDigits, hc]
  | cons d ds ih =>
    have hd : d < 10 := hds d (by simp)
    have ihds : ∀ x ∈ ds, x < 10 := fun x hx => hds x (by simp [hx])
    simp only [List.map_cons, List.cons_append, takeDigits,
      digitChar_isDigit hd, if_true, List.append_eq, ih ihds, digitChar_toNat hd]

/-- Continuations that cannot extend a numeric literal. -/
def litStop (r : List Char) : Prop :=
  ∀ c, r.head? = some c → c.isDigit = false ∧ c ≠ '.'

theorem litStop_notDigitHead {r : List Char} (h : litStop r) : notDigitHead r :=
  fun c hc => (h c hc).1

theorem stopF_litStop {r : List Char} (h : stopF r) : litStop r := by
  rcases h with ((h | h) | h | h) | h | h
  · subst h; intro c hc; simp at hc
  all_goals
    intro c hc; rw [h] at hc; cases hc; exact ⟨by decide, by decide⟩

theorem wf_num_elim {ip fp : List ℕ} (h : wf (.num ip fp) = true) :
    (∀ d ∈ ip, d < 10) ∧ (∀ d ∈ fp, d < 10) ∧ ¬(ip = [] ∧ fp = []) := by
  simp only [wf, Bool.and_eq_true] at h
  obtain ⟨⟨⟨h1, h2⟩, h3⟩, h4⟩ := h
  refine ⟨fun d hd => by simpa using List.all_eq_true.mp h1 d hd,
         fun d hd => by simpa using List.all_eq_true.mp h2 d hd, ?_⟩
  rintro ⟨rfl, rfl⟩
  simp at h3

theorem parseNum_spec {ip fp : List ℕ} {rest : List Char}
    (hw : wf (.num ip fp) = true) (hr : litStop rest) :
    parseNum (ppL (.num ip fp) ++ rest) = some (.num ip fp, rest) := by
  obtain ⟨hip, hfp, hne⟩ := wf_num_elim hw
  by_cases hfpe : fp = []
  · subst hfpe
    have hipne : ip ≠ [] := fun h => hne ⟨h, rfl⟩
    have : ppL (.num ip []) ++ rest = ip.map digitChar ++ rest := by
      simp [ppL]
    rw [this, parseNum, takeDigits_spec hip (litStop_notDigitHead hr)]
    cases rest with
    | nil => simp [hipne]
    | cons c cs =>
      have hc := hr c rfl
      split
      · next heq =>
        injection heq with h1 h2
        exact absurd h1 hc.2
      · next => simp [List.isEmpty_iff, hipne]
  · have : ppL (.num ip fp) ++ rest =
        ip.map digitChar ++ ('.' :: (fp.map digitChar ++ rest)) := by
      simp [ppL, hfpe]
    rw [this, parseNum, takeDigits_spec hip (fun c hc => by cases hc; decide)]
    simp only
    rw [takeDigits_spec hfp (litStop_notDigitHead hr)]
    have : (ip.isEmpty && fp.isEmpty) = false := by
      simp [List.isEmpty_iff, hfpe]
    simp [this]

theorem wf_add_elim {a b : AExp} (h : wf (.add a b) = true) :
    wf a = true ∧ wf b = true ∧ 1 ≤ lvl b := by
  simpa [wf, Bool.and_eq_true, and_assoc] using h

theorem wf_sub_elim {a b : AExp} (h : wf (.sub a b) = true) :
    wf a = true ∧ wf b = true ∧ 1 ≤ lvl b := by
  simpa [wf, Bool.and_eq_true, and_assoc] using h

theorem wf_mul_elim {a b : AExp} (h : wf (.mul a b) = true) :
    wf a = true ∧ wf b = true ∧ 1 ≤ lvl a ∧ 2 ≤ lvl b := by
  simpa [wf, Bool.and_eq_true, and_assoc] using h

theorem wf_div_elim {a b : AExp} (h : wf (.div a b) = true) :
    wf a = true ∧ wf b = true ∧ 1 ≤ lvl a ∧ 2 ≤ lvl b := by
  simpa [wf, Bool.and_eq_true, and_assoc] using h

theorem sizeA_pos (e : AExp) : 1 ≤ sizeA e := by
  cases e <;> simp [sizeA]

theorem ppL_ne_nil {e : AExp} (hw : wf e = true) : ppL e ≠ [] := by
  induction e with
  | num ip fp =>
    obtain ⟨-, -, hne⟩ := wf_num_elim hw
    intro h
    rcases List.append_eq_nil.mp h with ⟨h1, h2⟩
    have hip : ip = [] := by simpa using congrArg List.length h1
    have hfp : fp = [] := by
      by_cases hf : fp.isEmpty
      · exact List.isEmpty_iff.mp hf
      · simp [hf] at h2
    exact hne ⟨hip, hfp⟩
  | add a b iha ihb => simp [ppL]
  | sub a b iha ihb => simp [ppL]
  | mul a b iha ihb =>
    obtain ⟨hwa, -, -⟩ := wf_mul_elim hw
    simp [ppL, iha hwa]
  | div a b iha ihb =>
    obtain ⟨hwa, -, -⟩ := wf_div_elim hw
    simp [ppL, iha hwa]
  | neg a ih => simp [wf] at hw
  | pos a ih => simp [wf] at hw
  | paren a ih => simp [ppL]

theorem ppL_head {e : AExp} (hw : wf e = true) (hl : 1 ≤ lvl e) :
    ∃ c r, ppL e = c :: r ∧ (c.isDigit = true ∨ c = '.' ∨ c = '(') := by
  induction e with
  | num ip fp =>
    obtain ⟨hip, -, hne⟩ := wf_num_elim hw
    cases ip with
    | nil =>
      have hfp : fp ≠ [] := fun h => hne ⟨rfl, h⟩
      refine ⟨'.', fp.map digitChar, ?_, Or.inr (Or.inl rfl)⟩
      simp [ppL, List.isEmpty_iff, hfp]
    | cons d ds =>
      have hd : d < 10 := hip d (by simp)
      refine ⟨digitChar d,
        ds.map digitChar ++ (if fp.isEmpty then [] else '.' :: fp.map digitChar),
        by simp [ppL], Or.inl (digitChar_isDigit hd)⟩
  | add a b iha ihb => simp [lvl] at hl
  | sub a b iha ihb => simp [lvl] at hl
  | mul a b iha ihb =>
    obtain ⟨hwa, -, hla, -⟩ := wf_mul_elim hw
    obtain ⟨c, r, hcr, hc⟩ := iha hwa hla
    exact ⟨c, r ++ '*' :: ppL b, by simp [ppL, hcr], hc⟩
  | div a b iha ihb =>
    obtain ⟨hwa, -, hla, -⟩ := wf_div_elim hw
    obtain ⟨c, r, hcr, hc⟩ := iha hwa hla
    exact ⟨c, r ++ '/' :: ppL b, by simp [ppL, hcr], hc⟩
  | neg a ih => simp [wf] at hw
  | pos a ih => simp [wf] at hw
  | paren a ih => exact ⟨'(', _, rfl, Or.inr (Or.inr rfl)⟩

theorem ppL_allowed {e : AExp} (hw : wf e = true) :
    ∀ c ∈ ppL e, allowedChar c = true := by
  induction e with
  | num ip fp =>
    obtain ⟨hip, hfp, -⟩ := wf_num_elim hw
    intro c hc
    cases fp with
    | nil =>
      simp only [ppL, List.isEmpty_nil, if_true, List.append_nil] at hc
      obtain ⟨d, hd, rfl⟩ := List.mem_map.mp hc
      exact digitChar_allowed (hip d hd)
    | cons f fs =>
      simp [ppL] at hc
      rcases hc with hc | rfl | rfl | hc
      · obtain ⟨d, hd, rfl⟩ := hc
        exact digitChar_allowed (hip d hd)
      · decide
      · exact digitChar_allowed (hfp f (by simp))
      · obtain ⟨d, hd, rfl⟩ := hc
        exact digitChar_allowed (hfp d (by simp [hd]))
  | add a b iha ihb =>
    obtain ⟨hwa, hwb, -⟩ := wf_add_elim hw
    intro c hc
    simp only [ppL, List.mem_append, List.mem_cons] at hc
    rcases hc with hc | rfl | hc
    · exact iha hwa c hc
    · decide
    · exact ihb hwb c hc
  | sub a b iha ihb =>
    obtain ⟨hwa, hwb, -⟩ := wf_sub_elim hw
    intro c hc
    simp only [ppL, List.mem_append, List.mem_cons] at hc
    rcases hc with hc | rfl | hc
    · exact iha hwa c hc
    · decide
    · exact ihb hwb c hc
  | mul a b iha ihb =>
    obtain ⟨hwa, hwb, -, -⟩ := wf_mul_elim hw
    intro c hc
    simp only [ppL, List.mem_append, List.mem_cons] at hc
    rcases hc with hc | rfl | hc
    · exact iha hwa c hc
    · decide
    · exact ihb hwb c hc
  | div a b iha ihb =>
    obtain ⟨hwa, hwb, -, -⟩ := wf_div_elim hw
    intro c hc
    simp only [ppL, List.mem_append, List.mem_cons] at hc
    rcases hc with hc | rfl | hc
    · exact iha hwa c hc
    · decide
    · exact ihb hwb c hc
  | neg a ih => simp [wf] at hw
  | pos a ih => simp [wf] at hw
  | paren a ih =>
    intro c hc
    simp only [ppL, List.mem_cons, List.mem_append, List.mem_singleton,
      List.not_mem_nil, or_false] at hc
    rcases hc with rfl | hc | rfl
    · decide
    · exact ih hw c hc
    · decide

theorem ppL_length {e : AExp} (hw : wf e = true) : sizeA e ≤ (ppL e).length := by
  induction e with
  | num ip fp =>
    obtain ⟨-, -, hne⟩ := wf_num_elim hw
    have : ppL (.num ip fp) ≠ [] := ppL_ne_nil hw
    have := List.length_pos.mpr this
    simpa [sizeA] using this
  | add a b iha ihb =>
    obtain ⟨hwa, hwb, -⟩ := wf_add_elim hw
    have := iha hwa; have := ihb hwb
    simp only [sizeA, ppL, List.length_append, List.length_cons]
    omega
  | sub a b iha ihb =>
    obtain ⟨hwa, hwb, -⟩ := wf_sub_elim hw
    have := iha hwa; have := ihb hwb
    simp only [sizeA, ppL, List.length_append, List.length_cons]
    omega
  | mul a b iha ihb =>
    obtain ⟨hwa, hwb, -, -⟩ := wf_mul_elim hw
    have := iha hwa; have := ihb hwb
    simp only [sizeA, ppL, List.length_append, List.length_cons]
    omega
  | div a b iha ihb =>
    obtain ⟨hwa, hwb, -, -⟩ := wf_div_elim hw
    have := iha hwa; have := ihb hwb
    simp only [sizeA, ppL, List.length_append, List.length_cons]
    omega
  | neg a ih => simp [wf] at hw
  | pos a ih => simp [wf] at hw
  | paren a ih =>
    have := ih hw
    simp only [sizeA, ppL, List.length_cons, List.length_append, List.length_singleton]
    omega

theorem head_cases {r : List Char} {c : Char} (h : r.head? = some c) :
    ∃ t, r = c :: t := by
  cases r with
  | nil => simp at h
  | cons a t =>
    simp only [List.head?_cons, Option.some.injEq] at h
    exact ⟨t, by rw [h]⟩

theorem stopF_of_stopT {r : List Char} (h : stopT r) : stopF r := Or.inl h

theorem stopT_of_stopE {r : List Char} (h : stopE r) : stopT r := Or.inl h

theorem stopF_skipWs {r : List Char} (h : stopF r) : skipWs r = r := by
  rcases h with ((h | h) | h | h) | h | h
  · subst h; rfl
  all_goals
    obtain ⟨t, rfl⟩ := head_cases h
    exact skipWs_cons (by decide)

theorem parseTIter_stop {rest : List Char} {n : ℕ} (acc : AExp) (h : stopT rest)
    (hn : 1 ≤ n) : parseTIter n acc rest = some (acc, rest) := by
  obtain ⟨m, rfl⟩ : ∃ m, n = m + 1 := ⟨n - 1, by omega⟩
  rcases h with (h | h) | h | h
  · subst h; rfl
  all_goals
    obtain ⟨t, rfl⟩ := head_cases h
    rfl

theorem parseEIter_stop {rest : List Char} {n : ℕ} (acc : AExp) (h : stopE rest)
    (hn : 1 ≤ n) : parseEIter n acc rest = some (acc, rest) := by
  obtain ⟨m, rfl⟩ : ∃ m, n = m + 1 := ⟨n - 1, by omega⟩
  rcases h with h | h
  · subst h; rfl
  · obtain ⟨t, rfl⟩ := head_cases h
    rfl

theorem tOps_append (l1 l2 : List (Bool × AExp)) :
    tOps (l1 ++ l2) = tOps l1 ++ tOps l2 := by
  induction l1 with
  | nil => rfl
  | cons p l ih => cases p with | mk o f => simp [tOps, ih]

theorem eOps_append (l1 l2 : List (Bool × AExp)) :
    eOps (l1 ++ l2) = eOps l1 ++ eOps l2 := by
  induction l1 with
  | nil => rfl
  | cons p l ih => cases p with | mk o f => simp [eOps, ih]

theorem lsize_append (l1 l2 : List (Bool × AExp)) :
    lsize (l1 ++ l2) = lsize l1 + lsize l2 := by
  induction l1 with
  | nil => simp [lsize]
  | cons p l ih =>
    obtain ⟨o, f⟩ := p
    simp only [List.cons_append, lsize, List.append_eq, ih]
    omega

theorem lsize_mem {p : Bool × AExp} {l : List (Bool × AExp)} (h : p ∈ l) :
    1 + sizeA p.2 ≤ lsize l := by
  induction l with
  | nil => simp at h
  | cons q l ih =>
    obtain ⟨o, f⟩ := q
    rcases List.mem_cons.mp h with rfl | h2
    · simp only [lsize]
      omega
    · have := ih h2
      simp only [lsize]
      omega

theorem tSpine_pp (e : AExp) :
    ppL e = ppL (tSpine e).1 ++ tOps (tSpine e).2 := by
  induction e with
  | mul a b iha ihb =>
    simp only [ppL, tSpine, tOps_append, iha]
    simp [tOps]
  | div a b iha ihb =>
    simp only [ppL, tSpine, tOps_append, iha]
    simp [tOps]
  | _ => simp [tSpine, tOps]

theorem eSpine_pp (e : AExp) :
    ppL e = ppL (eSpine e).1 ++ eOps (eSpine e).2 := by
  induction e with
  | add a b iha ihb =>
    simp only [ppL, eSpine, eOps_append, iha]
    simp [eOps]
  | sub a b iha ihb =>
    simp only [ppL, eSpine, eOps_append, iha]
    simp [eOps]
  | _ => simp [eSpine, eOps]

theorem tSpine_fold (e : AExp) : tFold (tSpine e).1 (tSpine e).2 = e := by
  induction e with
  | mul a b iha ihb => simp only [tSpine, tFold, List.foldl_append] at iha ⊢; simp [iha]
  | div a b iha ihb => simp only [tSpine, tFold, List.foldl_append] at iha ⊢; simp [iha]
  | _ => rfl

theorem eSpine_fold (e : AExp) : eFold (eSpine e).1 (eSpine e).2 = e := by
  induction e with
  | add a b iha ihb => simp only [eSpine, eFold, List.foldl_append] at iha ⊢; simp [iha]
  | sub a b iha ihb => simp only [eSpine, eFold, List.foldl_append] at iha ⊢; simp [iha]
  | _ => rfl

theorem tSpine_size (e : AExp) : sizeA (tSpine e).1 + lsize (tSpine e).2 ≤ sizeA e := by
  induction e with
  | mul a b iha ihb =>
    simp only [tSpine, lsize_append, sizeA]
    simp [lsize] at iha ⊢
    omega
  | div a b iha ihb =>
    simp only [tSpine, lsize_append, sizeA]
    simp [lsize] at iha ⊢
    omega
  | _ => simp [tSpine, lsize]

theorem eSpine_size (e : AExp) : sizeA (eSpine e).1 + lsize (eSpine e).2 ≤ sizeA e := by
  induction e with
  | add a b iha ihb =>
    simp only [eSpine, lsize_append, sizeA]
    simp [lsize] at iha ⊢
    omega
  | sub a b iha ihb =>
    simp only [eSpine, lsize_append, sizeA]
    simp [lsize] at iha ⊢
    omega
  | _ => simp [eSpine, lsize]

theorem tSpine_wf {e : AExp} (hw : wf e = true) (hl : 1 ≤ lvl e) :
    wf (tSpine e).1 = true ∧ 2 ≤ lvl (tSpine e).1 ∧
      ∀ p ∈ (tSpine e).2, wf p.2 = true ∧ 2 ≤ lvl p.2 := by
  induction e with
  | num ip fp => exact ⟨hw, by simp [tSpine, lvl], by simp [tSpine]⟩
  | add a b iha ihb => simp [lvl] at hl
  | sub a b iha ihb => simp [lvl] at hl
  | mul a b iha ihb =>
    obtain ⟨hwa, hwb, hla, hlb⟩ := wf_mul_elim hw
    obtain ⟨h1, h2, h3⟩ := iha hwa hla
    refine ⟨h1, h2, ?_⟩
    intro p hp
    simp only [tSpine, List.mem_append, List.mem_singleton] at hp
    rcases hp with hp | rfl
    · exact h3 p hp
    · exact ⟨hwb, hlb⟩
  | div a b iha ihb =>
    obtain ⟨hwa, hwb, hla, hlb⟩ := wf_div_elim hw
    obtain ⟨h1, h2, h3⟩ := iha hwa hla
    refine ⟨h1, h2, ?_⟩
    intro p hp
    simp only [tSpine, List.mem_append, List.mem_singleton] at hp
    rcases hp with hp | rfl
    · exact h3 p hp
    · exact ⟨hwb, hlb⟩
  | neg a ih => simp [wf] at hw
  | pos a ih => simp [wf] at hw
  | paren a ih => exact ⟨hw, by simp [tSpine, lvl], by simp [tSpine]⟩

theorem eSpine_wf {e : AExp} (hw : wf e = true) :
    wf (eSpine e).1 = true ∧ 1 ≤ lvl (eSpine e).1 ∧
      ∀ p ∈ (eSpine e).2, wf p.2 = true ∧ 1 ≤ lvl p.2 := by
  induction e with
  | num ip fp => exact ⟨hw, by simp [eSpine, lvl], by simp [eSpine]⟩
  | add a b iha ihb =>
    obtain ⟨hwa, hwb, hlb⟩ := wf_add_elim hw
    obtain ⟨h1, h2, h3⟩ := iha hwa
    refine ⟨h1, h2, ?_⟩
    intro p hp
    simp only [eSpine, List.mem_append, List.mem_singleton] at hp
    rcases hp with hp | rfl
    · exact h3 p hp
    · exact ⟨hwb, hlb⟩
  | sub a b iha ihb =>
    obtain ⟨hwa, hwb, hlb⟩ := wf_sub_elim hw
    obtain ⟨h1, h2, h3⟩ := iha hwa
    refine ⟨h1, h2, ?_⟩
    intro p hp
    simp only [eSpine, List.mem_append, List.mem_singleton] at hp
    rcases hp with hp | rfl
    · exact h3 p hp
    · exact ⟨hwb, hlb⟩
  | mul a b iha ihb => exact ⟨hw, by simp [eSpine, lvl], by simp [eSpine]⟩
  | div a b iha ihb => exact ⟨hw, by simp [eSpine, lvl], by simp [eSpine]⟩
  | neg a ih => simp [wf] at hw
  | pos a ih => simp [wf] at hw
  | paren a ih => exact ⟨hw, by simp [eSpine, lvl], by simp [eSpine]⟩

theorem parseE_succ (m : ℕ) (cs : List Char) :
    parseE (m + 1) cs =
      match parseT m cs with
      | some (a, r) => parseEIter m a r
      | none => none := rfl

theorem parseT_succ (m : ℕ) (cs : List Char) :
    parseT (m + 1) cs =
      match parseF m cs with
      | some (a, r) => parseTIter m a r
      | none => none := rfl

theorem parseTIter_cons_mul (m : ℕ) (acc : AExp) (rest : List Char) :
    parseTIter (m + 1) acc ('*' :: rest) =
      match parseF m rest with
      | some (b, r) => parseTIter m (.mul acc b) r
      | none => none := rfl

theorem parseTIter_cons_div (m : ℕ) (acc : AExp) (rest : List Char) :
    parseTIter (m + 1) acc ('/' :: rest) =
      match parseF m rest with
      | some (b, r) => parseTIter m (.div acc b) r
      | none => none := rfl

theorem parseEIter_cons_add (m : ℕ) (acc : AExp) (rest : List Char) :
    parseEIter (m + 1) acc ('+' :: rest) =
      if rest.head? == some '+' then none
      else
        match parseT m rest with
        | some (b, r) => parseEIter m (.add acc b) r
        | none => none := rfl

theorem parseEIter_cons_sub (m : ℕ) (acc : AExp) (rest : List Char) :
    parseEIter (m + 1) acc ('-' :: rest) =
      if rest.head? == some '-' then none
      else
        match parseT m rest with
        | some (b, r) => parseEIter m (.sub acc b) r
        | none => none := rfl

theorem parseF_cons_lparen (m : ℕ) (rest : List Char) :
    parseF (m + 1) ('(' :: rest) =
      match parseE m rest with
      | some (e, r) =>
        match skipWs r with
        | ')' :: r2 => some (.paren e, r2)
        | _ => none
      | none => none := rfl

/-- Heads that are not one of the signs or an opening parenthesis are
dispatched to the number lexer. -/
theorem parseF_default {m : ℕ} {c : Char} {cs : List Char}
    (hws : c.isWhitespace = false) (h1 : c ≠ '+') (h2 : c ≠ '-') (h3 : c ≠ '(') :
    parseF (m + 1) (c :: cs) = parseNum (c :: cs) := by
  conv_lhs => rw [parseF]
  rw [skipWs_cons hws]
  split
  · next heq =>
    injection heq with hx hy
    exact absurd hx h1
  · next heq =>
    injection heq with hx hy
    exact absurd hx h2
  · next heq =>
    injection heq with hx hy
    exact absurd hx h3
  · rfl

theorem stopF_tOps {l : List (Bool × AExp)} {rest : List Char} (h : stopT rest) :
    stopF (tOps l ++ rest) := by
  cases l with
  | nil => simpa [tOps] using stopF_of_stopT h
  | cons p l =>
    obtain ⟨o, f⟩ := p
    cases o
    · exact Or.inr (Or.inr (by simp [tOps]))
    · exact Or.inr (Or.inl (by simp [tOps]))

theorem stopT_eOps {l : List (Bool × AExp)} {rest : List Char} (h : stopE rest) :
    stopT (eOps l ++ rest) := by
  cases l with
  | nil => simpa [eOps] using stopT_of_stopE h
  | cons p l =>
    obtain ⟨o, f⟩ := p
    cases o
    · exact Or.inr (Or.inr (by simp [eOps]))
    · exact Or.inr (Or.inl (by simp [eOps]))

theorem parseTIter_ok (l : List (Bool × AExp)) :
    ∀ (n : ℕ) (acc : AExp) (rest : List Char),
    (∀ p ∈ l, ∀ m r, 3 * sizeA p.2 ≤ m → stopF r →
        parseF m (ppL p.2 ++ r) = some (p.2, r)) →
    stopT rest → 3 * lsize l + 1 ≤ n →
    parseTIter n acc (tOps l ++ rest) = some (tFold acc l, rest) := by
  induction l with
  | nil =>
    intro n acc rest HF hstop hn
    simpa [tOps, tFold] using parseTIter_stop acc hstop (by omega)
  | cons p l ih =>
    intro n acc rest HF hstop hn
    obtain ⟨o, f⟩ := p
    obtain ⟨m, rfl⟩ : ∃ m, n = m + 1 := ⟨n - 1, by simp [lsize] at hn; omega⟩
    have hsz : 3 * sizeA f ≤ m := by simp [lsize] at hn; omega
    have hfuel : 3 * lsize l + 1 ≤ m := by simp [lsize] at hn; omega
    have hstopF : stopF (tOps l ++ rest) := stopF_tOps hstop
    have hF := HF (o, f) (by simp) m (tOps l ++ rest) hsz hstopF
    have HF2 : ∀ p ∈ l, ∀ m r, 3 * sizeA p.2 ≤ m → stopF r →
        parseF m (ppL p.2 ++ r) = some (p.2, r) :=
      fun p hp => HF p (by simp [hp])
    cases o
    · have hre : tOps ((false, f) :: l) ++ rest =
          '/' :: (ppL f ++ (tOps l ++ rest)) := by simp [tOps]
      rw [hre, parseTIter_cons_div, hF]
      have hfold : tFold acc ((false, f) :: l) = tFold (.div acc f) l := by
        simp [tFold]
      rw [hfold.symm] at *
      rw [hfold]
      exact ih m (.div acc f) rest HF2 hstop hfuel
    · have hre : tOps ((true, f) :: l) ++ rest =
          '*' :: (ppL f ++ (tOps l ++ rest)) := by simp [tOps]
      rw [hre, parseTIter_cons_mul, hF]
      have hfold : tFold acc ((true, f) :: l) = tFold (.mul acc f) l := by
        simp [tFold]
      rw [hfold]
      exact ih m (.mul acc f) rest HF2 hstop hfuel

theorem parseEIter_ok (l : List (Bool × AExp)) :
    ∀ (n : ℕ) (acc : AExp) (rest : List Char),
    (∀ p ∈ l, wf p.2 = true ∧ 1 ≤ lvl p.2) →
    (∀ p ∈ l, ∀ m r, 3 * sizeA p.2 + 1 ≤ m → stopT r →
        parseT m (ppL p.2 ++ r) = some (p.2, r)) →
    stopE rest → 3 * lsize l + 1 ≤ n →
    parseEIter n acc (eOps l ++ rest) = some (eFold acc l, rest) := by
  induction l with
  | nil =>
    intro n acc rest HW HT hstop hn
    simpa [eOps, eFold] using parseEIter_stop acc hstop (by omega)
  | cons p l ih =>
    intro n acc rest HW HT hstop hn
    obtain ⟨o, f⟩ := p
    obtain ⟨m, rfl⟩ : ∃ m, n = m + 1 := ⟨n - 1, by simp [lsize] at hn; omega⟩
    have hsz : 3 * sizeA f + 1 ≤ m := by simp [lsize] at hn; omega
    have hfuel : 3 * lsize l + 1 ≤ m := by simp [lsize] at hn; omega
    have hstopT : stopT (eOps l ++ rest) := stopT_eOps hstop
    have hT := HT (o, f) (by simp) m (eOps l ++ rest) hsz hstopT
    have HW2 : ∀ p ∈ l, wf p.2 = true ∧ 1 ≤ lvl p.2 :=
      fun p hp => HW p (by simp [hp])
    have HT2 : ∀ p ∈ l, ∀ m r, 3 * sizeA p.2 + 1 ≤ m → stopT r →
        parseT m (ppL p.2 ++ r) = some (p.2, r) :=
      fun p hp => HT p (by simp [hp])
    obtain ⟨hwf, hlf⟩ := HW (o, f) (by simp)
    obtain ⟨c, rr, hcr, hcgood⟩ := ppL_head hwf hlf
    have hcplus : c ≠ '+' := by
      rcases hcgood with hd | rfl | rfl
      · exact isDigit_ne_plus hd
      · decide
      · decide
    have hcminus : c ≠ '-' := by
      rcases hcgood with hd | rfl | rfl
      · exact isDigit_ne_minus hd
      · decide
      · decide
    cases o
    · have hre : eOps ((false, f) :: l) ++ rest =
          '-' :: (ppL f ++ (eOps l ++ rest)) := by simp [eOps]
      rw [hre, parseEIter_cons_sub]
      have hhead : (ppL f ++ (eOps l ++ rest)).head? = some c := by
        rw [hcr]; rfl
      have hbeq : ((ppL f ++ (eOps l ++ rest)).head? == some '-') = false := by
        rw [hhead]
        exact beq_eq_false_iff_ne.mpr (fun h => hcminus (Option.some.inj h))
      rw [hbeq, if_neg (by simp), hT]
      have hfold : eFold acc ((false, f) :: l) = eFold (.sub acc f) l := by
        simp [eFold]
      rw [hfold]
      exact ih m (.sub acc f) rest HW2 HT2 hstop hfuel
    · have hre : eOps ((true, f) :: l) ++ rest =
          '+' :: (ppL f ++ (eOps l ++ rest)) := by simp [eOps]
      rw [hre, parseEIter_cons_add]
      have hhead : (ppL f ++ (eOps l ++ rest)).head? = some c := by
        rw [hcr]; rfl
      have hbeq : ((ppL f ++ (eOps l ++ rest)).head? == some '+') = false := by
        rw [hhead]
        exact beq_eq_false_iff_ne.mpr (fun h => hcplus (Option.some.inj h))
      rw [hbeq, if_neg (by simp), hT]
      have hfold : eFold acc ((true, f) :: l) = eFold (.add acc f) l := by
        simp [eFold]
      rw [hfold]
      exact ih m (.add acc f) rest HW2 HT2 hstop hfuel

theorem parseT_ok (e : AExp) (hw : wf e = true) (hl : 1 ≤ lvl e)
    (HF : ∀ f, (f = (tSpine e).1 ∨ ∃ o, (o, f) ∈ (tSpine e).2) →
      ∀ m r, 3 * sizeA f ≤ m → stopF r → parseF m (ppL f ++ r) = some (f, r)) :
    ∀ n rest, 3 * sizeA e + 1 ≤ n → stopT rest →
      parseT n (ppL e ++ rest) = some (e, rest) := by
  intro n rest hn hstop
  have hpos := sizeA_pos e
  obtain ⟨m, rfl⟩ : ∃ m, n = m + 1 := ⟨n - 1, by omega⟩
  obtain ⟨hwh, hlh, hitems⟩ := tSpine_wf hw hl
  have hsz := tSpine_size e
  have hposh := sizeA_pos (tSpine e).1
  rw [parseT_succ, tSpine_pp e, List.append_assoc]
  rw [HF (tSpine e).1 (Or.inl rfl) m _ (by omega) (stopF_tOps hstop)]
  show parseTIter m (tSpine e).1 (tOps (tSpine e).2 ++ rest) = some (e, rest)
  rw [parseTIter_ok (tSpine e).2 m (tSpine e).1 rest
    (fun p hp => HF p.2 (Or.inr ⟨p.1, by rwa [Prod.mk.eta]⟩))
    hstop (by omega)]
  rw [tSpine_fold]

theorem parseE_ok (e : AExp) (hw : wf e = true)
    (HT : ∀ t, (t = (eSpine e).1 ∨ ∃ o, (o, t) ∈ (eSpine e).2) →
      ∀ m r, 3 * sizeA t + 1 ≤ m → stopT r → parseT m (ppL t ++ r) = some (t, r)) :
    ∀ n rest, 3 * sizeA e + 2 ≤ n → stopE rest →
      parseE n (ppL e ++ rest) = some (e, rest) := by
  intro n rest hn hstop
  have hpos := sizeA_pos e
  obtain ⟨m, rfl⟩ : ∃ m, n = m + 1 := ⟨n - 1, by omega⟩
  obtain ⟨hwh, hlh, hitems⟩ := eSpine_wf hw
  have hsz := eSpine_size e
  have hposh := sizeA_pos (eSpine e).1
  rw [parseE_succ, eSpine_pp e, List.append_assoc]
  rw [HT (eSpine e).1 (Or.inl rfl) m _ (by omega) (stopT_eOps hstop)]
  show parseEIter m (eSpine e).1 (eOps (eSpine e).2 ++ rest) = some (e, rest)
  rw [parseEIter_ok (eSpine e).2 m (eSpine e).1 rest hitems
    (fun p hp => HT p.2 (Or.inr ⟨p.1, by rwa [Prod.mk.eta]⟩))
    hstop (by omega)]
  rw [eSpine_fold]

theorem ppL_num_head {ip fp : List ℕ} (hw : wf (.num ip fp) = true) :
    ∃ c rr, ppL (.num ip fp) = c :: rr ∧ (c.isDigit = true ∨ c = '.') := by
  obtain ⟨hip, -, hne⟩ := wf_num_elim hw
  cases ip with
  | nil =>
    have hfp : fp ≠ [] := fun h => hne ⟨rfl, h⟩
    refine ⟨'.', fp.map digitChar, ?_, Or.inr rfl⟩
    simp [ppL, List.isEmpty_iff, hfp]
  | cons d ds =>
    have hd : d < 10 := hip d (by simp)
    refine ⟨digitChar d,
      ds.map digitChar ++ (if fp.isEmpty then [] else '.' :: fp.map digitChar),
      by simp [ppL], Or.inl (digitChar_isDigit hd)⟩

/-- Soundness of the recursive-descent parser on printed well-formed trees,
all three grammar levels at once, by strong induction on the tree size. -/
theorem parse_sound : ∀ (k : ℕ) (e : AExp), sizeA e ≤ k → wf e = true →
    ((2 ≤ lvl e → ∀ n rest, 3 * sizeA e ≤ n → stopF rest →
        parseF n (ppL e ++ rest) = some (e, rest)) ∧
     (1 ≤ lvl e → ∀ n rest, 3 * sizeA e + 1 ≤ n → stopT rest →
        parseT n (ppL e ++ rest) = some (e, rest)) ∧
     (∀ n rest, 3 * sizeA e + 2 ≤ n → stopE rest →
        parseE n (ppL e ++ rest) = some (e, rest))) := by
  intro k
  induction k with
  | zero =>
    intro e hsz
    have := sizeA_pos e
    omega
  | succ k ih =>
    intro e hsz hw
    cases e with
    | num ip fp =>
      have hF : ∀ n rest, 3 * sizeA (AExp.num ip fp) ≤ n → stopF rest →
          parseF n (ppL (.num ip fp) ++ rest) = some (.num ip fp, rest) := by
        intro n rest hn hstop
        obtain ⟨m, rfl⟩ : ∃ m, n = m + 1 := ⟨n - 1, by simp [sizeA] at hn; omega⟩
        obtain ⟨c, rr, hcr, hcgood⟩ := ppL_num_head hw
        have hws : c.isWhitespace = false := by
          rcases hcgood with hd | rfl
          · exact isDigit_not_ws hd
          · decide
        have h1 : c ≠ '+' := by
          rcases hcgood with hd | rfl
          · exact isDigit_ne_plus hd
          · decide
        have h2 : c ≠ '-' := by
          rcases hcgood with hd | rfl
          · exact isDigit_ne_minus hd
          · decide
        have h3 : c ≠ '(' := by
          rcases hcgood with hd | rfl
          · exact isDigit_ne_lparen hd
          · decide
        have hshape : ppL (.num ip fp) ++ rest = c :: (rr ++ rest) := by
          rw [hcr]; rfl
        rw [hshape, parseF_default hws h1 h2 h3, ← hshape]
        exact parseNum_spec hw (stopF_litStop hstop)
      refine ⟨fun _ => hF, ?_, ?_⟩
      · intro hl
        refine parseT_ok _ hw hl ?_
        intro f hf
        rcases hf with rfl | ⟨o, ho⟩
        · exact hF
        · simp [tSpine] at ho
      · refine parseE_ok _ hw ?_
        intro t ht
        rcases ht with rfl | ⟨o, ho⟩
        · intro m r hm hr
          refine parseT_ok _ hw (by simp [eSpine, lvl]) ?_ m r (by simpa [eSpine] using hm) hr
          intro f hf
          rcases hf with rfl | ⟨o2, ho2⟩
          · exact hF
          · simp [eSpine, tSpine] at ho2
        · simp [eSpine] at ho
    | paren a =>
      have hwa : wf a = true := by simpa [wf] using hw
      have hsa : sizeA a ≤ k := by simp [sizeA] at hsz; omega
      have hF : ∀ n rest, 3 * sizeA (AExp.paren a) ≤ n → stopF rest →
          parseF n (ppL (.paren a) ++ rest) = some (.paren a, rest) := by
        intro n rest hn hstop
        obtain ⟨m, rfl⟩ : ∃ m, n = m + 1 := ⟨n - 1, by simp [sizeA] at hn; omega⟩
        have hshape : ppL (.paren a) ++ rest = '(' :: (ppL a ++ (')' :: rest)) := by
          simp [ppL]
        rw [hshape, parseF_cons_lparen]
        rw [(ih a hsa hwa).2.2 m (')' :: rest) (by simp [sizeA] at hn; omega)
            (Or.inr rfl)]
        rfl
      refine ⟨fun _ => hF, ?_, ?_⟩
      · intro hl
        refine parseT_ok _ hw hl ?_
        intro f hf
        rcases hf with rfl | ⟨o, ho⟩
        · exact hF
        · simp [tSpine] at ho
      · refine parseE_ok _ hw ?_
        intro t ht
        rcases ht with rfl | ⟨o, ho⟩
        · intro m r hm hr
          refine parseT_ok _ hw (by simp [eSpine, lvl]) ?_ m r (by simpa [eSpine] using hm) hr
          intro f hf
          rcases hf with rfl | ⟨o2, ho2⟩
          · exact hF
          · simp [eSpine, tSpine] at ho2
        · simp [eSpine] at ho
    | mul a b =>
      obtain ⟨hwa, hwb, hla, hlb⟩ := wf_mul_elim hw
      have hsab : sizeA (AExp.mul a b) = sizeA a + sizeA b + 1 := rfl
      have hT : ∀ n rest, 3 * sizeA (AExp.mul a b) + 1 ≤ n → stopT rest →
          parseT n (ppL (.mul a b) ++ rest) = some (.mul a b, rest) := by
        refine parseT_ok _ hw (by simp [lvl]) ?_
        intro f hf
        have hsp := tSpine_size (AExp.mul a b)
        have hl2 : lsize (tSpine (AExp.mul a b)).2 =
            lsize (tSpine a).2 + (1 + sizeA b + 0) := by
          simp [tSpine, lsize_append, lsize]
        obtain ⟨hwh, hlh, hitems⟩ := tSpine_wf hw (by simp [lvl])
        rcases hf with rfl | ⟨o, ho⟩
        · have : sizeA (tSpine (AExp.mul a b)).1 ≤ k := by
            have := sizeA_pos b
            omega
          exact (ih _ this hwh).1 hlh
        · have hmem := lsize_mem ho
          have hif := hitems (o, f) ho
          have : sizeA f ≤ k := by
            have := sizeA_pos (tSpine (AExp.mul a b)).1
            simp only at hmem
            omega
          exact (ih f this hif.1).1 hif.2
      refine ⟨by intro h2; simp [lvl] at h2, fun _ => hT, ?_⟩
      refine parseE_ok _ hw ?_
      intro t ht
      rcases ht with rfl | ⟨o, ho⟩
      · exact hT
      · simp [eSpine] at ho
    | div a b =>
      obtain ⟨hwa, hwb, hla, hlb⟩ := wf_div_elim hw
      have hT : ∀ n rest, 3 * sizeA (AExp.div a b) + 1 ≤ n → stopT rest →
          parseT n (ppL (.div a b) ++ rest) = some (.div a b, rest) := by
        refine parseT_ok _ hw (by simp [lvl]) ?_
        intro f hf
        have hsp := tSpine_size (AExp.div a b)
        have hl2 : lsize (tSpine (AExp.div a b)).2 =
            lsize (tSpine a).2 + (1 + sizeA b + 0) := by
          simp [tSpine, lsize_append, lsize]
        obtain ⟨hwh, hlh, hitems⟩ := tSpine_wf hw (by simp [lvl])
        rcases hf with rfl | ⟨o, ho⟩
        · have : sizeA (tSpine (AExp.div a b)).1 ≤ k := by
            have := sizeA_pos b
            omega
          exact (ih _ this hwh).1 hlh
        · have hmem := lsize_mem ho
          have hif := hitems (o, f) ho
          have : sizeA f ≤ k := by
            have := sizeA_pos (tSpine (AExp.div a b)).1
            simp only at hmem
            omega
          exact (ih f this hif.1).1 hif.2
      refine ⟨by intro h2; simp [lvl] at h2, fun _ => hT, ?_⟩
      refine parseE_ok _ hw ?_
      intro t ht
      rcases ht with rfl | ⟨o, ho⟩
      · exact hT
      · simp [eSpine] at ho
    | add a b =>
      obtain ⟨hwa, hwb, hlb⟩ := wf_add_elim hw
      refine ⟨by intro h2; simp [lvl] at h2, by intro h1; simp [lvl] at h1, ?_⟩
      refine parseE_ok _ hw ?_
      intro t ht
      have hsp := eSpine_size (AExp.add a b)
      have hl2 : lsize (eSpine (AExp.add a b)).2 =
          lsize (eSpine a).2 + (1 + sizeA b + 0) := by
        simp [eSpine, lsize_append, lsize]
      obtain ⟨hwh, hlh, hitems⟩ := eSpine_wf hw
      rcases ht with rfl | ⟨o, ho⟩
      · have : sizeA (eSpine (AExp.add a b)).1 ≤ k := by
          have := sizeA_pos b
          omega
        exact (ih _ this hwh).2.1 hlh
      · have hmem := lsize_mem ho
        have hit := hitems (o, t) ho
        have : sizeA t ≤ k := by
          have := sizeA_pos (eSpine (AExp.add a b)).1
          simp only at hmem
          omega
        exact (ih t this hit.1).2.1 hit.2
    | sub a b =>
      obtain ⟨hwa, hwb, hlb⟩ := wf_sub_elim hw
      refine ⟨by intro h2; simp [lvl] at h2, by intro h1; simp [lvl] at h1, ?_⟩
      refine parseE_ok _ hw ?_
      intro t ht
      have hsp := eSpine_size (AExp.sub a b)
      have hl2 : lsize (eSpine (AExp.sub a b)).2 =
          lsize (eSpine a).2 + (1 + sizeA b + 0) := by
        simp [eSpine, lsize_append, lsize]
      obtain ⟨hwh, hlh, hitems⟩ := eSpine_wf hw
      rcases ht with rfl | ⟨o, ho⟩
      · have : sizeA (eSpine (AExp.sub a b)).1 ≤ k := by
          have := sizeA_pos b
          omega
        exact (ih _ this hwh).2.1 hlh
      · have hmem := lsize_mem ho
        have hit := hitems (o, t) ho
        have : sizeA t ≤ k := by
          have := sizeA_pos (eSpine (AExp.sub a b)).1
          simp only at hmem
          omega
        exact (ih t this hit.1).2.1 hit.2
    | neg a => simp [wf] at hw
    | pos a => simp [wf] at hw

/-- On the printed text of any well-formed tree whose conventional value is
defined, `evalMath` returns exactly that value. -/
theorem evalMath_ppS {e : AExp} {v : ℚ} (hw : wf e = true) (hv : aeval e = some v) :
    evalMath (ppS e) = .ok v := by
  have hne : ppL e ≠ [] := ppL_ne_nil hw
  have hall : (ppL e).all allowedChar = true :=
    List.all_eq_true.mpr (fun c hc => ppL_allowed hw c hc)
  have hlen := ppL_length hw
  have hparse : parseE (3 * (ppL e).length + 2) (ppL e) = some (e, []) := by
    have h := (parse_sound (sizeA e) e le_rfl hw).2.2 (3 * (ppL e).length + 2) []
      (by omega) (Or.inl rfl)
    simpa using h
  have hdata : (ppS e).data = ppL e := rfl
  have hcond : ((ppL e).isEmpty || !(ppL e).all allowedChar) = false := by
    simp [hall, List.isEmpty_iff, hne]
  simp only [evalMath, hdata, hcond, Bool.false_eq_true, if_false, hparse,
    skipWs_nil, List.isEmpty_nil, if_true, hv]

/-! ## Evaluator and tracker support lemmas -/

/-- A text with any character outside the whitelist is rejected before any
evaluation. -/
theorem evalMath_badChar {s : String} (h : ¬ s.data.all allowedChar = true) :
    evalMath s = .error .badChar := by
  have hc : (s.data.isEmpty || !s.data.all allowedChar) = true := by
    simp only [Bool.or_eq_true, Bool.not_eq_true']
    right
    simpa using h
  simp only [evalMath, hc, if_true]

theorem decodeEntry_encodeEntry (h : Entry) : decodeEntry (encodeEntry h) = some h := rfl

theorem decodeEntries_map (l : List Entry) :
    decodeEntries (l.map encodeEntry) = some l := by
  induction l with
  | nil => rfl
  | cons h l ih => simp [decodeEntries, decodeEntry_encodeEntry, ih]

theorem getField_encodeState_version (st : LedgerState) :
    getField (encodeState st) "version" = Json.num st.version := rfl

theorem getField_encodeState_balance (st : LedgerState) :
    getField (encodeState st) "balance" = Json.num st.balance := rfl

theorem getField_encodeState_expiry (st : LedgerState) :
    getField (encodeState st) "expiry" = Json.str st.expiry := rfl

theorem getField_encodeState_history (st : LedgerState) :
    getField (encodeState st) "history" = Json.arr (st.history.map encodeEntry) := rfl

theorem decodeState_encodeState (st : LedgerState) :
    decodeState (encodeState st) = some st := by
  simp only [decodeState, getField_encodeState_version, getField_encodeState_balance,
    getField_encodeState_expiry, getField_encodeState_history, decodeEntries_map,
    Option.map_some']

theorem truthy_num {v : ℚ} : truthy (Json.num v) = true ↔ v ≠ 0 := by
  simp [truthy]

/-- Shape of a successful `addEntry`. -/
theorem addEntry_ok_inv {st st2 : LedgerState} {now delta : ℚ} {e d : String}
    (h : addEntry st now e d = .ok (st2, delta)) :
    st2 = { st with
             balance := round2 (st.balance + delta),
             history := st.history ++
               [⟨now, normalizeExpr (jsTrim e), d, delta,
                 round2 (st.balance + delta)⟩] } ∧
      evalMath (normalizeExpr (jsTrim e)) = .ok delta ∧ jsTrim e ≠ "" := by
  by_cases hemp : jsTrim e = ""
  · simp [addEntry, hemp] at h
  · cases hev : evalMath (normalizeExpr (jsTrim e)) with
    | error er => simp [addEntry, hemp, hev] at h
    | ok w =>
      simp only [addEntry, if_neg hemp, hev] at h
      have hpair := Except.ok.inj h
      have hst : st2 = { st with
          balance := round2 (st.balance + w),
          history := st.history ++
            [⟨now, normalizeExpr (jsTrim e), d, w, round2 (st.balance + w)⟩] } :=
        (congrArg Prod.fst hpair).symm
      have hdel : w = delta := congrArg Prod.snd hpair
      subst hdel
      exact ⟨hst, rfl, hemp⟩

theorem addEntry_err_empty {st : LedgerState} {now : ℚ} {e d : String}
    (h : jsTrim e = "") : addEntry st now e d = .error .emptyInput := by
  simp [addEntry, h]

theorem addEntry_err_eval {st : LedgerState} {now : ℚ} {e d : String} {er : EvalErr}
    (hne : jsTrim e ≠ "") (hev : evalMath (normalizeExpr (jsTrim e)) = .error er) :
    addEntry st now e d = .error (.invalidExpression er) := by
  simp [addEntry, hne, hev]

theorem undo_version (s : LedgerState) : (undo s).1.version = s.version := by
  unfold undo
  split
  · rfl
  · rfl

theorem importData_ok_inv {j j2 : Json} (h : importData (some j) = .ok j2) :
    j2 = j ∧ truthy (getField j "version") = true ∧
      isArr (getField j "history") = true := by
  by_cases hc : truthy (getField j "version") && isArr (getField j "history")
  · simp only [importData, hc, if_true] at h
    have := Except.ok.inj h
    simp only [Bool.and_eq_true] at hc
    exact ⟨this.symm, hc.1, hc.2⟩
  · simp [importData, hc] at h

theorem decodeState_version {j : Json} {s2 : LedgerState}
    (hd : decodeState j = some s2) :
    getField j "version" = Json.num s2.version := by
  unfold decodeState at hd
  split at hd
  · next v b ex hs h1 h2 h3 h4 =>
    simp only [Option.map_eq_some'] at hd
    obtain ⟨l, hl, rfl⟩ := hd
    simpa using h1
  · simp at hd

theorem foldRound_append (hs : List Entry) (en : Entry) :
    foldRound (hs ++ [en]) = round2 (foldRound hs + en.delta) := by
  simp [foldRound, List.foldl_append]

/-- Every reachable state keeps a truthy (nonzero) `version`. -/
theorem reach_version {today : String} {s : LedgerState} (h : Reach today s) :
    s.version ≠ 0 := by
  induction h with
  | init => norm_num [defaultState]
  | add hr heq ih =>
    obtain ⟨hst, -, -⟩ := addEntry_ok_inv heq
    rw [hst]
    exact ih
  | undoStep hr ih =>
    rw [undo_version]
    exact ih
  | recompute hr ih => simpa [recomputeBalance] using ih
  | expiry date hr ih => simpa [updateExpiry] using ih
  | imp hr himp hdec ih =>
    obtain ⟨-, htr, -⟩ := importData_ok_inv himp
    rw [decodeState_version hdec] at htr
    exact truthy_num.mp htr

/-! ## Claim theorems -/

/-- C1 (counterexample): starting from the default state, two successful
`addEntry(".004", _)` calls reach a state whose balance (0, because each
sub-cent delta rounds away incrementally) differs from `round2` of the sum
of the history deltas (`round2 0.008 = 0.01`), so the claimed invariant
`balance = round2(Σ delta)` does not hold after every `addEntry`. -/
theorem c1_counterexample :
    ∃ s : LedgerState, AddReach "2024-01-01" s ∧
      s.balance ≠ round2 (sumDeltas s.history) := by
  have h1 : addEntry (defaultState "2024-01-01") 0 ".004" "a" =
      .ok (⟨1, 0, "2024-01-01", [⟨0, "+.004", "a", 1/250, 0⟩]⟩, 1/250) := by
    with_unfolding_all decide
  have h2 : addEntry ⟨1, 0, "2024-01-01", [⟨0, "+.004", "a", 1/250, 0⟩]⟩
      0 ".004" "b" =
      .ok (⟨1, 0, "2024-01-01",
        [⟨0, "+.004", "a", 1/250, 0⟩, ⟨0, "+.004", "b", 1/250, 0⟩]⟩, 1/250) := by
    with_unfolding_all decide
  exact ⟨_, AddReach.step (AddReach.step AddReach.init h1) h2,
    by with_unfolding_all decide⟩

/-- C1 (amended): after every sequence of successful `addEntry` calls from
the default state, `state.balance` equals the left fold that adds each
history delta to the running balance and rounds immediately
(`foldRound`) — incremental rounding, not `round2` of the total sum.  The
two coincide when every delta is an exact 2-decimal value but differ in
general (see the counterexample). -/
theorem c1_balance_incremental_rounding :
    ∀ (today : String) (s : LedgerState), AddReach today s →
      s.balance = foldRound s.history := by
  intro today s h
  induction h with
  | init => rfl
  | step hr heq ih =>
    obtain ⟨hst, -, -⟩ := addEntry_ok_inv heq
    subst hst
    simp [foldRound_append, ih]

/-- C1 witness: the amended claim at the default state. -/
theorem c1_witness :
    (defaultState "2024-01-01").balance =
      foldRound (defaultState "2024-01-01").history :=
  c1_balance_incremental_rounding "2024-01-01" _ AddReach.init

/-- C2 (counterexample): on a state whose single history delta is `0.005`,
`recomputeBalance` sets the balance to the raw sum `0.005`, not to
`round2 0.005 = 0.01` — the source's `recomputeBalance` does not round. -/
theorem c2_counterexample :
    (recomputeBalance ⟨1, 7, "2024-01-01",
        [⟨0, "+.005", "d", 1/200, 1/200⟩]⟩).balance = 1/200 ∧
    round2 (sumDeltas [⟨0, "+.005", "d", 1/200, 1/200⟩]) = 1/100 ∧
    ((1 : ℚ)/200) ≠ 1/100 := by
  with_unfolding_all decide

/-- C2 (amended): for every state (whatever its prior balance, corrupted or
not), `recomputeBalance` sets `balance` to the exact, UNROUNDED sum of the
history deltas, and it is idempotent: a second consecutive call leaves the
state (hence the balance) unchanged. -/
theorem c2_recompute_spec :
    ∀ st : LedgerState,
      (recomputeBalance st).balance = sumDeltas st.history ∧
      recomputeBalance (recomputeBalance st) = recomputeBalance st := by
  intro st
  exact ⟨rfl, by simp [recomputeBalance]⟩

/-- C3 (counterexample): undoing the last of two entries leaves the deltas
`[0.005]`; the source recomputes the balance as the unrounded sum `0.005`,
which differs from the claimed rounded sum `round2 0.005 = 0.01`. -/
theorem c3_counterexample :
    (undo ⟨1, 1, "2024-01-01",
        [⟨0, "+.005", "a", 1/200, 0⟩, ⟨0, "+1", "b", 1, 1⟩]⟩).2 = true ∧
    (undo ⟨1, 1, "2024-01-01",
        [⟨0, "+.005", "a", 1/200, 0⟩, ⟨0, "+1", "b", 1, 1⟩]⟩).1.balance = 1/200 ∧
    (undo ⟨1, 1, "2024-01-01",
        [⟨0, "+.005", "a", 1/200, 0⟩, ⟨0, "+1", "b", 1, 1⟩]⟩).1.balance ≠
      round2 (sumDeltas (undo ⟨1, 1, "2024-01-01",
        [⟨0, "+.005", "a", 1/200, 0⟩, ⟨0, "+1", "b", 1, 1⟩]⟩).1.history) := by
  with_unfolding_all decide

/-- C3 (amended): `undo` on empty history returns `false` and leaves the
whole system (state and persisted snapshot) untouched; on non-empty history
it removes exactly the last entry, sets the balance to the exact UNROUNDED
sum of the remaining deltas (the source's recompute does not round),
persists the new state, and returns `true`. -/
theorem c3_undo_spec :
    ∀ sys : Sys,
      (sys.state.history = [] → undoRun sys = (sys, false)) ∧
      (sys.state.history ≠ [] →
        (undoRun sys).2 = true ∧
        (undoRun sys).1.state.history = sys.state.history.dropLast ∧
        (undoRun sys).1.state.balance = sumDeltas sys.state.history.dropLast ∧
        (undoRun sys).1.state.expiry = sys.state.expiry ∧
        (undoRun sys).1.store = save (undoRun sys).1.state) := by
  intro sys
  constructor
  · intro h
    simp [undoRun, undo, h]
  · intro h
    have hne : sys.state.history.isEmpty = false := by
      simp [List.isEmpty_iff, h]
    simp [undoRun, undo, hne, recomputeBalance]

/-- C3 witness: the amended claim at an empty-history system and at a
one-entry system. -/
theorem c3_witness :
    undoRun ⟨defaultState "2024-01-01", none⟩ =
      (⟨defaultState "2024-01-01", none⟩, false) ∧
    (undoRun ⟨⟨1, 100, "2024-01-01", [⟨0, "+100", "x", 100, 100⟩]⟩, none⟩).2 =
      true := by
  exact ⟨(c3_undo_spec _).1 rfl, ((c3_undo_spec _).2 (by simp)).1⟩

/-- C4: (a) any text containing a character outside
`{0-9, +, -, *, /, (, ), ., whitespace}` makes `evalMath` fail with the
whitelist rejection, before any evaluation; (b) for every valid infix
arithmetic text over that alphabet — the printed form of a well-formed
tree, with conventional precedence forced by the grammar levels and
parenthesis grouping by explicit nodes — whose mathematical value is
defined, `evalMath` returns exactly that value. -/
theorem c4_evalMath_spec :
    (∀ s : String, ¬ s.data.all allowedChar = true →
      evalMath s = .error .badChar) ∧
    (∀ (e : AExp) (v : ℚ), wf e = true → aeval e = some v →
      evalMath (ppS e) = .ok v) :=
  ⟨fun _ h => evalMath_badChar h, fun _ _ hw hv => evalMath_ppS hw hv⟩

/-- C4 witness: the whitelist rejection at `"1+x"` and the correct value `7`
of the precedence-sensitive text `"1+2*3"`. -/
theorem c4_witness :
    evalMath "1+x" = .error .badChar ∧
    evalMath (ppS (.add (.num [1] []) (.mul (.num [2] []) (.num [3] [])))) =
      .ok 7 := by
  constructor
  · exact c4_evalMath_spec.1 "1+x" (by decide)
  · exact c4_evalMath_spec.2 (.add (.num [1] []) (.mul (.num [2] []) (.num [3] [])))
      7 (by decide) (by with_unfolding_all decide)

/-- C5: `importData` fails exactly when the text is unparsable, or the
parsed payload lacks a truthy `version`, or its `history` is not an array;
on failure the prior state and stored snapshot are untouched (the source
throws before the assignment), and on success the raw parsed payload
becomes the entire state (no merge) and is persisted. -/
theorem c5_importData_spec :
    ∀ (stJ : Json) (sto : Option Json) (p : Option Json),
      ((∃ j2, importData p = .ok j2) ↔
        ∃ j, p = some j ∧ truthy (getField j "version") = true ∧
          isArr (getField j "history") = true) ∧
      (∀ er, importData p = .error er →
        importDataRun stJ sto p = ((stJ, sto), false)) ∧
      (∀ j2, importData p = .ok j2 →
        p = some j2 ∧ importDataRun stJ sto p = ((j2, some j2), true)) := by
  intro stJ sto p
  refine ⟨?_, ?_, ?_⟩
  · constructor
    · rintro ⟨j2, hj2⟩
      cases p with
      | none => simp [importData] at hj2
      | some j =>
        obtain ⟨rfl, h1, h2⟩ := importData_ok_inv hj2
        exact ⟨j2, rfl, h1, h2⟩
    · rintro ⟨j, rfl, h1, h2⟩
      exact ⟨j, by simp [importData, h1, h2]⟩
  · intro er h
    simp [importDataRun, h]
  · intro j2 h
    cases p with
    | none => simp [importData] at h
    | some j =>
      obtain ⟨rfl, -, -⟩ := importData_ok_inv h
      exact ⟨rfl, by simp [importDataRun, h]⟩

/-- C5 witness: an unparsable payload fails leaving state and store
untouched; a minimal valid payload wholly replaces the state. -/
theorem c5_witness :
    importDataRun Json.null none none = ((Json.null, none), false) ∧
    importDataRun Json.null none
        (some (Json.obj [("version", Json.num 1), ("history", Json.arr [])])) =
      ((Json.obj [("version", Json.num 1), ("history", Json.arr [])],
        some (Json.obj [("version", Json.num 1), ("history", Json.arr [])])), true) := by
  constructor
  · exact (c5_importData_spec Json.null none none).2.1 .invalidFormat rfl
  · exact ((c5_importData_spec Json.null none
      (some (Json.obj [("version", Json.num 1), ("history", Json.arr [])]))).2.2
      (Json.obj [("version", Json.num 1), ("history", Json.arr [])])
      (by with_unfolding_all rfl)).2

/-- C6: for every reachable state, exporting and re-importing succeeds and
leaves the state observably unchanged: the re-imported payload is exactly
the exported snapshot and it decodes back to the original state (same
version, balance, expiry, and history). -/
theorem c6_roundtrip :
    ∀ (today : String) (s : LedgerState), Reach today s →
      importData (some (exportData s)) = .ok (exportData s) ∧
      decodeState (exportData s) = some s := by
  intro today s h
  have hv : truthy (Json.num s.version) = true := truthy_num.mpr (reach_version h)
  constructor
  · simp [importData, exportData, getField_encodeState_version,
      getField_encodeState_history, hv, isArr]
  · simpa [exportData] using decodeState_encodeState s

/-- C6 witness: the round trip at the (reachable) default state. -/
theorem c6_witness :
    importData (some (exportData (defaultState "2024-01-01"))) =
      .ok (exportData (defaultState "2024-01-01")) ∧
    decodeState (exportData (defaultState "2024-01-01")) =
      some (defaultState "2024-01-01") :=
  c6_roundtrip "2024-01-01" _ Reach.init

/-- C7 (counterexample): the stored text `"{}"` parses to the truthy empty
object, which is not a valid LedgerState snapshot (it fails `decodeState`),
yet `load` adopts it as the state instead of falling back to the default —
the source's `load` performs no validation beyond truthiness. -/
theorem c7_counterexample :
    load "2024-01-01" (.parsed (Json.obj [])) = Json.obj [] ∧
    decodeState (Json.obj []) = none ∧
    Json.obj [] ≠ encodeState (defaultState "2024-01-01") := by
  refine ⟨rfl, rfl, ?_⟩
  intro h
  injection h with hf
  simp at hf

/-- C7 (amended): initialization never raises (total function) and falls
back to the default state exactly when the stored text is absent,
unparsable, or parses to a JS-falsy value; any truthy parsed value — valid
snapshot or not — is adopted as the state without validation. -/
theorem c7_load_spec :
    ∀ (today : String) (j : Json),
      load today .absent = encodeState (defaultState today) ∧
      load today .unparsable = encodeState (defaultState today) ∧
      (truthy j = true → load today (.parsed j) = j) ∧
      (truthy j = false → load today (.parsed j) = encodeState (defaultState today)) := by
  intro today j
  exact ⟨rfl, rfl, fun h => by simp [load, h], fun h => by simp [load, h]⟩

/-- C7 witness: a truthy stored number is adopted as-is; a stored `null`
falls back to the default. -/
theorem c7_witness :
    load "2024-01-01" (.parsed (Json.num 5)) = Json.num 5 ∧
    load "2024-01-01" (.parsed Json.null) =
      encodeState (defaultState "2024-01-01") := by
  constructor
  · exact (c7_load_spec "2024-01-01" (Json.num 5)).2.2.1 (by with_unfolding_all rfl)
  · exact (c7_load_spec "2024-01-01" Json.null).2.2.2 rfl

/-- C8: whenever `addEntry` fails — with `EmptyInput` because the trimmed
text is empty, or with an `InvalidExpression` failure propagated from the
evaluator (including the malformed trailing-operator text `"1+"`) — the
system is unchanged: same state (balance, history) and nothing persisted. -/
theorem c8_addEntry_failure_atomic :
    ∀ (sys : Sys) (now : ℚ) (e d : String),
      (∀ er, addEntry sys.state now e d = .error er →
        addEntryRun sys now e d = (sys, .error er)) ∧
      (jsTrim e = "" → addEntry sys.state now e d = .error .emptyInput) ∧
      (∀ er2, jsTrim e ≠ "" →
        evalMath (normalizeExpr (jsTrim e)) = .error er2 →
        addEntry sys.state now e d = .error (.invalidExpression er2)) ∧
      addEntry sys.state now "1+" d = .error (.invalidExpression .notParsed) := by
  intro sys now e d
  refine ⟨?_, fun h => addEntry_err_empty h,
    fun er2 h1 h2 => addEntry_err_eval h1 h2, ?_⟩
  · intro er h
    simp [addEntryRun, h]
  · exact addEntry_err_eval (by decide) (by with_unfolding_all decide)

/-- C8 witness: the empty text and the trailing-operator text at the
default system, both leaving the system untouched. -/
theorem c8_witness :
    addEntryRun ⟨defaultState "2024-01-01", none⟩ 0 "" "x" =
      (⟨defaultState "2024-01-01", none⟩, .error .emptyInput) ∧
    addEntryRun ⟨defaultState "2024-01-01", none⟩ 0 "1+" "x" =
      (⟨defaultState "2024-01-01", none⟩, .error (.invalidExpression .notParsed)) := by
  have h1 := c8_addEntry_failure_atomic ⟨defaultState "2024-01-01", none⟩ 0 "" "x"
  have h2 := c8_addEntry_failure_atomic ⟨defaultState "2024-01-01", none⟩ 0 "1+" "x"
  exact ⟨h1.1 _ (h1.2.1 rfl), h2.1 _ h2.2.2.2⟩

/-- C9 (counterexample): `addEntry("-.005", _)` on the default (zero)
balance gives the new balance `round2 (-0.005) = 0` — JS `Math.round`
rounds the negative tie toward `+∞` — whereas round-half-away-from-zero
gives `-0.01`; so the updated balance does not follow half-away-from-zero
semantics on negative ties. -/
theorem c9_counterexample :
    addEntry (defaultState "2024-01-01") 0 "-.005" "x" =
      .ok (⟨1, 0, "2024-01-01", [⟨0, "-.005", "x", -(1/200), 0⟩]⟩, -(1/200)) ∧
    round2away ((defaultState "2024-01-01").balance + -(1/200)) = -(1/100) ∧
    ((0 : ℚ)) ≠ -(1/100) := by
  refine ⟨by with_unfolding_all decide, by with_unfolding_all decide,
    by with_unfolding_all decide⟩

/-- C9 (amended): `addEntry` rounds the updated balance with
`Math.round((b+d)*100)/100`, i.e. round-HALF-UP at 2 decimals (ties toward
`+∞`): it agrees with round-half-away-from-zero whenever `b+d ≥ 0`, but a
negative tie at the third decimal rounds toward zero (e.g. `-0.005 ↦ 0.00`,
not `-0.01`).  The stored delta itself is kept unrounded as evaluated. -/
theorem c9_addEntry_rounding :
    ∀ (st st2 : LedgerState) (now delta : ℚ) (e d : String),
      addEntry st now e d = .ok (st2, delta) →
      st2.balance = round2 (st.balance + delta) ∧
      st2.history = st.history ++
        [⟨now, normalizeExpr (jsTrim e), d, delta, round2 (st.balance + delta)⟩] ∧
      (0 ≤ st.balance + delta →
        round2 (st.balance + delta) = round2away (st.balance + delta)) := by
  intro st st2 now delta e d h
  obtain ⟨hst, -, -⟩ := addEntry_ok_inv h
  subst hst
  exact ⟨rfl, rfl, fun hpos => by simp [round2, round2away, hpos]⟩

/-- C9 witness: the amended claim at a successful `addEntry("100", _)` from
the default state, where the nonnegative rounding agrees with
half-away-from-zero. -/
theorem c9_witness :
    (⟨1, 100, "2024-01-01", [⟨0, "+100", "w", 100, 100⟩]⟩ : LedgerState).balance =
      round2 ((defaultState "2024-01-01").balance + 100) ∧
    round2 ((defaultState "2024-01-01").balance + 100) =
      round2away ((defaultState "2024-01-01").balance + 100) := by
  have h : addEntry (defaultState "2024-01-01") 0 "100" "w" =
      .ok (⟨1, 100, "2024-01-01", [⟨0, "+100", "w", 100, 100⟩]⟩, 100) := by
    with_unfolding_all decide
  have h2 := c9_addEntry_rounding _ _ _ _ _ _ h
  exact ⟨h2.1, h2.2.2 (by norm_num [defaultState])⟩

/-- C10 (counterexample): importing the (validated, well-typed) payload
with balance `7` and deltas `[0.005, 0.004]` succeeds and keeps balance `7`,
violating `balance = round2(Σ delta) = 0.01`; but contrary to the claim's
restoration clause, neither `recomputeBalance` (which yields the unrounded
sum `0.009 ≠ 0.01`) nor `undo` (remaining sum `0.005 ≠ round2 0.005 = 0.01`)
restores the rounded-sum invariant. -/
theorem c10_counterexample :
    importData (some (encodeState ⟨1, 7, "2024-01-01",
        [⟨0, "+.005", "i", 1/200, 7⟩, ⟨0, "+.004", "j", 1/250, 7⟩]⟩)) =
      .ok (encodeState ⟨1, 7, "2024-01-01",
        [⟨0, "+.005", "i", 1/200, 7⟩, ⟨0, "+.004", "j", 1/250, 7⟩]⟩) ∧
    (7 : ℚ) ≠ round2 (sumDeltas
      [⟨0, "+.005", "i", 1/200, 7⟩, ⟨0, "+.004", "j", 1/250, 7⟩]) ∧
    (recomputeBalance ⟨1, 7, "2024-01-01",
        [⟨0, "+.005", "i", 1/200, 7⟩, ⟨0, "+.004", "j", 1/250, 7⟩]⟩).balance ≠
      round2 (sumDeltas (recomputeBalance ⟨1, 7, "2024-01-01",
        [⟨0, "+.005", "i", 1/200, 7⟩, ⟨0, "+.004", "j", 1/250, 7⟩]⟩).history) ∧
    (undo ⟨1, 7, "2024-01-01",
        [⟨0, "+.005", "i", 1/200, 7⟩, ⟨0, "+.004", "j", 1/250, 7⟩]⟩).1.balance ≠
      round2 (sumDeltas (undo ⟨1, 7, "2024-01-01",
        [⟨0, "+.005", "i", 1/200, 7⟩, ⟨0, "+.004", "j", 1/250, 7⟩]⟩).1.history) := by
  refine ⟨by with_unfolding_all rfl, by with_unfolding_all decide,
    by with_unfolding_all decide, by with_unfolding_all decide⟩

/-- C10 (amended): a successful `importData` does not recompute the
balance — the whole raw payload, its `balance` field included, becomes the
state and is persisted as-is, even when that balance differs from
`round2(Σ delta)`; a later `undo` or `recomputeBalance` resets the balance
to the exact UNROUNDED sum of the (remaining) deltas, which re-establishes
the rounded-sum invariant only when that sum is itself an exact 2-decimal
value. -/
theorem c10_import_keeps_balance :
    ∀ (stJ : Json) (sto : Option Json) (p : LedgerState),
      p.version ≠ 0 →
      importDataRun stJ sto (some (encodeState p)) =
        ((encodeState p, some (encodeState p)), true) ∧
      getField (encodeState p) "balance" = Json.num p.balance ∧
      (recomputeBalance p).balance = sumDeltas p.history ∧
      (p.history ≠ [] →
        (undo p).1.balance = sumDeltas p.history.dropLast) := by
  intro stJ sto p hv
  have htr : truthy (Json.num p.version) = true := truthy_num.mpr hv
  have hok : importData (some (encodeState p)) = .ok (encodeState p) := by
    simp [importData, getField_encodeState_version, getField_encodeState_history,
      htr, isArr]
  refine ⟨by simp [importDataRun, hok], getField_encodeState_balance p, rfl, ?_⟩
  intro h
  have hne : p.history.isEmpty = false := by simp [List.isEmpty_iff, h]
  simp [undo, hne, recomputeBalance]

/-- C10 witness: the amended claim at the counterexample's payload. -/
theorem c10_witness :
    importDataRun Json.null none (some (encodeState ⟨1, 7, "2024-01-01",
        [⟨0, "+.005", "i", 1/200, 7⟩, ⟨0, "+.004", "j", 1/250, 7⟩]⟩)) =
      ((encodeState ⟨1, 7, "2024-01-01",
          [⟨0, "+.005", "i", 1/200, 7⟩, ⟨0, "+.004", "j", 1/250, 7⟩]⟩,
        some (encodeState ⟨1, 7, "2024-01-01",
          [⟨0, "+.005", "i", 1/200, 7⟩, ⟨0, "+.004", "j", 1/250, 7⟩]⟩)), true) ∧
    (recomputeBalance ⟨1, 7, "2024-01-01",
        [⟨0, "+.005", "i", 1/200, 7⟩, ⟨0, "+.004", "j", 1/250, 7⟩]⟩).balance =
      sumDeltas [⟨0, "+.005", "i", 1/200, 7⟩, ⟨0, "+.004", "j", 1/250, 7⟩] := by
  have h := c10_import_keeps_balance Json.null none
    ⟨1, 7, "2024-01-01", [⟨0, "+.005", "i", 1/200, 7⟩, ⟨0, "+.004", "j", 1/250, 7⟩]⟩
    (by norm_num)
  exact ⟨h.1, h.2.2.1⟩
